import Mathlib

/-!
Verification of the URL template-expansion and concurrent-probing engine of
`features/link_cmd.py`.

Python strings are modelled as `List Char` (ASCII semantics for the casing
functions, which is the alphabet this program works over).  Fallible code
returns `Except`.  Functions that Python writes with non-structural loops are
written with an explicit fuel argument (always called with fuel = the length
of the scanned list, which a lemma shows is sufficient), so that every
definition is executable by the kernel.
-/

abbrev Str := List Char

set_option maxRecDepth 40000 in
/-- ASCII alphanumeric test, as in the character class `[A-Za-z0-9]`. -/
def isAlnumCh (c : Char) : Bool :=
  (65 ≤ c.toNat && c.toNat ≤ 90) || (97 ≤ c.toNat && c.toNat ≤ 122) ||
    (48 ≤ c.toNat && c.toNat ≤ 57)

/-- ASCII letter test (the "cased" characters of `str.title`). -/
def isAlphaCh (c : Char) : Bool :=
  (65 ≤ c.toNat && c.toNat ≤ 90) || (97 ≤ c.toNat && c.toNat ≤ 122)

/-- ASCII digit test, as in `str.isdigit`. -/
def isDigitCh (c : Char) : Bool :=
  48 ≤ c.toNat && c.toNat ≤ 57

/-- ASCII uppercasing of one character. -/
def toUpperCh (c : Char) : Char :=
  if 97 ≤ c.toNat && c.toNat ≤ 122 then Char.ofNat (c.toNat - 32) else c

/-- ASCII lowercasing of one character. -/
def toLowerCh (c : Char) : Char :=
  if 65 ≤ c.toNat && c.toNat ≤ 90 then Char.ofNat (c.toNat + 32) else c

/-- Separator class of the regex `[\s_-]+` used by `expand_gacha_name_base`. -/
def isSepCh (c : Char) : Bool :=
  c = ' ' || c = '\t' || c = '\n' || c = '\x0d' || c = '\x0b' || c = '\x0c' ||
    c = '_' || c = '-'

/-- `str.lower()` (ASCII). -/
def pyLower (s : Str) : Str := s.map toLowerCh

/-- `str.upper()` (ASCII). -/
def pyUpper (s : Str) : Str := s.map toUpperCh

/-- Helper for `pyTitle`: the flag records whether the previous character was
cased (a letter). -/
def pyTitleAux : Bool → Str → Str
  | _, [] => []
  | prevCased, c :: r =>
    if isAlphaCh c then
      (if prevCased then toLowerCh c else toUpperCh c) :: pyTitleAux true r
    else
      c :: pyTitleAux false r

/-- `str.title()` (ASCII): uppercase each letter that follows a non-letter,
lowercase every other letter. -/
def pyTitle (s : Str) : Str := pyTitleAux false s

/-- `str.capitalize()` (ASCII): first character uppercased, rest lowercased. -/
def pyCapitalize : Str → Str
  | [] => []
  | c :: r => toUpperCh c :: pyLower r

/-- Substring test: Python's `pat in s`. -/
def hasSubstr (pat : Str) : Str → Bool
  | [] => pat.isEmpty
  | c :: r => pat.isPrefixOf (c :: r) || hasSubstr pat r

/-- `re.split(r'[\s_-]+', s)`, fuelled scan (fuel = length of the remaining
input is always enough).  `cur` is the current part, reversed. -/
def splitSepsAux : Nat → Str → Str → List Str
  | _, cur, [] => [cur.reverse]
  | 0, cur, rest => [cur.reverse ++ rest]
  | fuel+1, cur, c :: r =>
    if isSepCh c then cur.reverse :: splitSepsAux fuel [] (r.dropWhile isSepCh)
    else splitSepsAux fuel (c :: cur) r

/-- `re.split(r'[\s_-]+', s)`: split on maximal separator runs (a leading or
trailing run produces an empty part, interior runs never do). -/
def splitSeps (s : Str) : List Str := splitSepsAux s.length [] s

/-- Order-preserving de-duplication with a `seen` accumulator, mirroring the
`seen = set(); uniq = []` loops of `expand_gacha_name_base` and
`expand_gacha_values`. -/
def dedupeAux {α : Type} [DecidableEq α] (seen : List α) : List α → List α
  | [] => []
  | x :: xs =>
    if x ∈ seen then dedupeAux seen xs else x :: dedupeAux (x :: seen) xs

/-- First-occurrence de-duplication. -/
def dedupe {α : Type} [DecidableEq α] (l : List α) : List α := dedupeAux [] l

/-- `expand_gacha_name_base` (link_cmd.py lines 46-76): casing variants of one
gacha name — original, title, lower, plus a concatenated capitalized form when
the lowercase text contains both "token" and "wheel"; unique, order kept. -/
def expand_gacha_name_base (name : Str) : List Str :=
  let v1 : List Str := [name]
  let v2 : List Str := if pyTitle name ∈ v1 then v1 else v1 ++ [pyTitle name]
  let lower := pyLower name
  let v3 : List Str := if lower ∈ v2 then v2 else v2 ++ [lower]
  let v4 : List Str :=
    if hasSubstr "token".data lower && hasSubstr "wheel".data lower then
      let camel := ((splitSeps lower).map pyCapitalize).flatten
      if camel ∈ v3 then v3 else v3 ++ [camel]
    else v3
  dedupe v4

/-- The six suffix forms of one base: the base itself and `-2` … `-6`
(`f"{b}-{i}"` for `i in range(2, 7)`). -/
def gachaSuffixed (b : Str) : List Str :=
  b :: (['2', '3', '4', '5', '6'].map fun d => b ++ ['-', d])

/-- `expand_gacha_values` (link_cmd.py lines 78-99): every casing variant of
every input, each with the six suffix forms, de-duplicated preserving order. -/
def expand_gacha_values (values_list : List Str) : List Str :=
  dedupe (values_list.flatMap fun v => (expand_gacha_name_base v).flatMap gachaSuffixed)

/-- Uppercase hexadecimal digit (indices 0-15; out-of-range defaults to '0',
never reached by the encoder). -/
def hexDigit (n : Nat) : Char :=
  (['0', '1', '2', '3', '4', '5', '6', '7', '8', '9',
    'A', 'B', 'C', 'D', 'E', 'F']).getD n '0'

/-- UTF-8 bytes of one character (as `urllib.parse.quote` encodes by default). -/
def utf8Bytes (c : Char) : List Nat :=
  let n := c.toNat
  if n < 128 then [n]
  else if n < 2048 then [192 + n / 64, 128 + n % 64]
  else if n < 65536 then [224 + n / 4096, 128 + n / 64 % 64, 128 + n % 64]
  else [240 + n / 262144, 128 + n / 4096 % 64, 128 + n / 64 % 64, 128 + n % 64]

/-- `%XX` form of one byte. -/
def percentByte (b : Nat) : Str :=
  ['%', hexDigit (b / 16), hexDigit (b % 16)]

/-- The always-safe characters of `urllib.parse.quote`: ASCII alphanumerics
and `_.-~`.  The call sites in link_cmd.py pass `safe=''`, so nothing else is
ever kept. -/
def quoteSafeCh (c : Char) : Bool :=
  isAlnumCh c || c = '_' || c = '.' || c = '-' || c = '~'

/-- Encoding of one character under `quote(·, safe='')`. -/
def quoteCh (c : Char) : Str :=
  if quoteSafeCh c then [c] else (utf8Bytes c).flatMap percentByte

/-- `urllib.parse.quote(s, safe='')`. -/
def pyQuote (s : Str) : Str := s.flatMap quoteCh

/-- Fuelled core of `str.replace` for a non-empty pattern: leftmost-first,
non-overlapping (fuel = length of the remaining input is always enough). -/
def replaceFuel (pat rep : Str) : Nat → Str → Str
  | _, [] => []
  | 0, s => s
  | fuel+1, c :: s =>
    if pat.isPrefixOf (c :: s) then
      rep ++ replaceFuel pat rep fuel ((c :: s).drop pat.length)
    else c :: replaceFuel pat rep fuel s

/-- `s.replace(pat, rep)`.  The empty-pattern case interleaves `rep` around
every character, as Python does; the repository only calls it with non-empty
patterns. -/
def pyReplace (s pat rep : Str) : Str :=
  if pat.isEmpty then rep ++ s.flatMap (fun c => c :: rep)
  else replaceFuel pat rep s.length s

/-- One attempt of the regex `\[([A-Za-z0-9]+)\]` at the character right after
a `[`: a non-empty alphanumeric run followed by `]`.  Returns the tag and the
input remaining after the `]`. -/
def parseTag (l : Str) : Option (Str × Str) :=
  if (l.takeWhile isAlnumCh).isEmpty then none
  else
    match l.dropWhile isAlnumCh with
    | ']' :: rest => some (l.takeWhile isAlnumCh, rest)
    | _ => none

/-- Fuelled scan of `re.findall(r'\[([A-Za-z0-9]+)\]', s)`: at each `[`, try
`parseTag`; on success resume after the match, on failure resume one character
later (fuel = length of the remaining input is always enough). -/
def findTagsFuel : Nat → Str → List Str
  | 0, _ => []
  | _, [] => []
  | fuel+1, c :: l =>
    if c = '[' then
      match parseTag l with
      | some (t, r) => t :: findTagsFuel fuel r
      | none => findTagsFuel fuel l
    else findTagsFuel fuel l

/-- `extract_tags` (link_cmd.py lines 40-41): all `[tag]` markers, in order,
a repeated marker reported once per occurrence. -/
def extract_tags (template : Str) : List Str :=
  findTagsFuel template.length template

/-- `valid_tags` (link_cmd.py lines 43-44): every tag fully matches
`[A-Za-z0-9]+`. -/
def valid_tags (tags : List Str) : Bool :=
  tags.all fun t => !t.isEmpty && t.all isAlnumCh

/-- `MAX_COMBINATIONS` (link_cmd.py line 22). -/
def MAX_COMBINATIONS : Nat := 20000

/-- The running-product overflow check of both URL generators: multiply the
accumulator by each list's length in order; the moment it exceeds
`MAX_COMBINATIONS`, report that running value (the `raise ValueError` path).
`none` means the check passed. -/
def checkCombos (acc : Nat) : List (List Str) → Option Nat
  | [] => none
  | l :: ls =>
    let t := acc * l.length
    if t > MAX_COMBINATIONS then some t else checkCombos t ls

/-- `itertools.product(*lists)`: tuples in lexicographic order with the last
coordinate varying fastest. -/
def cartProd {α : Type} : List (List α) → List (List α)
  | [] => [[]]
  | l :: ls => l.flatMap fun x => (cartProd ls).map (x :: ·)

/-- Per-tag working lists of `__generate_urls_from_template_impl` (lines
476-484): raw values for every tag, except the gacha expansion when the tag
uppercases to `G`; `none` models the early `return []` on a missing or empty
value list. -/
def buildLists (tv : Str → List Str) : List Str → Option (List (List Str))
  | [] => some []
  | t :: ts =>
    let vals := tv t
    if vals.isEmpty then none
    else
      let l := if pyUpper t = ['G'] then expand_gacha_values vals else vals
      (buildLists tv ts).map (l :: ·)

/-- Per-tag working lists of the first (shadowed) `generate_urls_from_template`
(lines 237-250): same as `buildLists` plus a branch keeping raw values for an
all-digit `T` tag — which also appends the raw values, like the default. -/
def buildListsFirst (tv : Str → List Str) : List Str → Option (List (List Str))
  | [] => some []
  | t :: ts =>
    let vals := tv t
    if vals.isEmpty then none
    else
      let l :=
        if pyUpper t = ['G'] then expand_gacha_values vals
        else if pyUpper t = ['T'] && vals.all (fun v => !v.isEmpty && v.all isDigitCh) then vals
        else vals
      (buildListsFirst tv ts).map (l :: ·)

/-- URL materialization for one combination (lines 491-495): substitute each
tag's `[tag]` marker, in tag order, by the percent-encoded value, using
replace-all semantics. -/
def substCombo (template : Str) (tags : List Str) (combo : List Str) : Str :=
  (tags.zip combo).foldl
    (fun u tc => pyReplace u ('[' :: tc.1 ++ [']']) (pyQuote tc.2)) template

/-- `__generate_urls_from_template_impl` (link_cmd.py lines 471-496).
`Except.error n` models `raise ValueError` with running combination count `n`;
`Except.ok urls` is the returned list. -/
def generate_urls_from_template_impl (template : Str) (tv : Str → List Str) :
    Except Nat (List Str) :=
  let tags := extract_tags template
  if tags.isEmpty then .ok []
  else
    match buildLists tv tags with
    | none => .ok []
    | some lists =>
      match checkCombos 1 lists with
      | some t => .error t
      | none => .ok ((cartProd lists).map (substCombo template tags))

/-- The first, later-shadowed `generate_urls_from_template` (lines 225-266);
it differs from the surviving implementation only in the extra `T` branch and
in the wording of the overflow message. -/
def generate_urls_from_template_first (template : Str) (tv : Str → List Str) :
    Except Nat (List Str) :=
  let tags := extract_tags template
  if tags.isEmpty then .ok []
  else
    match buildListsFirst tv tags with
    | none => .ok []
    | some lists =>
      match checkCombos 1 lists with
      | some t => .error t
      | none => .ok ((cartProd lists).map (substCombo template tags))

/-- The surviving `generate_urls_from_template` wrapper (lines 460-469): it
just calls `__generate_urls_from_template_impl`. -/
def generate_urls_from_template (template : Str) (tv : Str → List Str) :
    Except Nat (List Str) :=
  generate_urls_from_template_impl template tv

deriving instance DecidableEq for Except

/-- `check_url` (link_cmd.py lines 104-116).  The two oracles give the outcome
of `session.head` and `session.get` as a function of the timeout bound they
are issued with (`Except.error` models a raised transport exception, `.ok s`
a response with status `s`).  The first component of the result is the
returned boolean (Live); the second records whether the GET fallback was
issued at all. -/
def check_url (head : Nat → Except Unit Nat) (get : Nat → Except Unit Nat) :
    Bool × Bool :=
  match head 8 with
  | .ok 200 => (true, false)
  | _ =>
    match get 10 with
    | .ok s => (s == 200, true)
    | .error _ => (false, true)

/-- `TEMPLATE_BANNER_SPLASH` (link_cmd.py line 29). -/
def TEMPLATE_BANNER_SPLASH : Str :=
  "https://dl.dir.freefiremobile.com/common/OB[V]/ID/[T]_[E]/splash.jpg".data

/-- `TEMPLATE_BANNER_OVERVIEW` (link_cmd.py line 30). -/
def TEMPLATE_BANNER_OVERVIEW : Str :=
  "https://dl.dir.freefiremobile.com/common/OB[V]/ID/[T]_[E]/overview.jpg".data

/-- `OVERVIEW_VARIANTS` (link_cmd.py line 33). -/
def OVERVIEW_VARIANTS : List Str :=
  ["overview".data, "viewover".data, "overivew".data, "rivervow".data, "vowover".data]

/-- The five spelling variants of one generated overview URL
(link_cmd.py lines 419-421): `base.replace("/overview.jpg", f"/{v}.jpg")`. -/
def overviewVariantUrls (base : Str) : List Str :=
  OVERVIEW_VARIANTS.map fun v => pyReplace base "/overview.jpg".data ('/' :: (v ++ ".jpg".data))

/-- The banner branch of `handle_tag_input` (link_cmd.py lines 403-422):
splash expansion first, then every overview expansion result further expanded
into its five spelling variants; an overflow in either sub-expansion aborts
the whole request with that sub-expansion's count. -/
def bannerCandidates (tv : Str → List Str) : Except Nat (List Str) :=
  match generate_urls_from_template TEMPLATE_BANNER_SPLASH tv with
  | .error e => .error e
  | .ok splash =>
    match generate_urls_from_template TEMPLATE_BANNER_OVERVIEW tv with
    | .error e => .error e
    | .ok bases => .ok (splash ++ bases.flatMap overviewVariantUrls)

/-- Modelled from the spec: the claimed overview expansion substitutes only
the TRAILING "overview" path segment of each base URL with each alternate
spelling ("the overview list is then further expanded by substituting a fixed
trailing path segment (\x22overview\x22) with each of 5 known alternate
spellings"). -/
def claimOverviewTrailing (base : Str) : List Str :=
  OVERVIEW_VARIANTS.map fun v =>
    base.take (base.length - "/overview.jpg".data.length) ++ ('/' :: (v ++ ".jpg".data))

/-- Modelled from the spec: the banner CandidateSet as claim C7 describes it —
splash expansion first, then the trailing-segment-substituted overview
expansions. -/
def claimBannerCandidates (tv : Str → List Str) : Except Nat (List Str) :=
  match generate_urls_from_template TEMPLATE_BANNER_SPLASH tv with
  | .error e => .error e
  | .ok splash =>
    match generate_urls_from_template TEMPLATE_BANNER_OVERVIEW tv with
    | .error e => .error e
    | .ok bases => .ok (splash ++ bases.flatMap claimOverviewTrailing)

/-- `WORKERS` (link_cmd.py line 19). -/
def WORKERS : Nat := 4

/-- `BATCH_SIZE` (link_cmd.py line 20). -/
def BATCH_SIZE : Nat := 2000

/-- Fuelled stride: every `WORKERS`-th element, starting at the head (fuel =
length of the remaining input is always enough). -/
def stridedFuel : Nat → List Str → List Str
  | 0, _ => []
  | _, [] => []
  | fuel+1, x :: xs => x :: stridedFuel fuel (xs.drop (WORKERS - 1))

/-- The round-robin split `[urls[i::WORKERS] for i in range(WORKERS)]`
(link_cmd.py line 171). -/
def roundRobinChunks (urls : List Str) : List (List Str) :=
  (List.range WORKERS).map fun i => stridedFuel (urls.drop i).length (urls.drop i)

/-- Status of one `worker_task` coroutine (link_cmd.py lines 118-159):
`ready k` — at the top of the batch loop, about to start batch `k`
(the loop-bound test and the `found_event` test happen here);
`inFlight k` — the `asyncio.gather` of batch `k` has been issued;
`done r` — the coroutine returned `r`. -/
inductive WStatus : Type
  | ready (k : Nat)
  | inFlight (k : Nat)
  | done (res : Option Str)
deriving DecidableEq

/-- Shared state of one `find_first_live_url` invocation: the per-worker
statuses and the `found_event` flag. -/
structure SState where
  workers : List WStatus
  ev : Bool
deriving DecidableEq

/-- Worker `w`'s partition. -/
def chunkOf (chunks : List (List Str)) (w : Nat) : List Str := chunks.getD w []

/-- Batch `k` of worker `w`: `urls_chunk[i:i+BATCH_SIZE]` at `i = k*BATCH_SIZE`. -/
def batchOf (chunks : List (List Str)) (w k : Nat) : List Str :=
  ((chunkOf chunks w).drop (k * BATCH_SIZE)).take BATCH_SIZE

/-- One scheduler step granting worker `w` a slice of execution.  `ready`:
if the partition is exhausted the worker returns `None`; else if `found_event`
is set it returns `None`; else it fans out the batch's probes.  `inFlight`:
the gathered results are scanned in batch order; the first Live URL sets
`found_event` and is returned, otherwise the worker moves to the next batch
(the inter-batch sleep is a suspension with no state change).  Steps for an
out-of-range or finished worker change nothing. -/
def searchStep (chunks : List (List Str)) (live : Str → Bool) (st : SState)
    (w : Nat) : SState :=
  match st.workers.getD w (.done none) with
  | .ready k =>
    if (chunkOf chunks w).length ≤ k * BATCH_SIZE then
      { st with workers := st.workers.set w (.done none) }
    else if st.ev then
      { st with workers := st.workers.set w (.done none) }
    else
      { st with workers := st.workers.set w (.inFlight k) }
  | .inFlight k =>
    match (batchOf chunks w k).find? live with
    | some u => { workers := st.workers.set w (.done (some u)), ev := true }
    | none => { st with workers := st.workers.set w (.ready (k + 1)) }
  | .done _ => st

/-- The probes worker `w` would fan out if granted the next step: non-empty
exactly when it is `ready`, its partition is not exhausted and `found_event`
is unset. -/
def launchProbes (chunks : List (List Str)) (st : SState) (w : Nat) : List Str :=
  match st.workers.getD w (.done none) with
  | .ready k =>
    if (chunkOf chunks w).length ≤ k * BATCH_SIZE then []
    else if st.ev then []
    else batchOf chunks w k
  | _ => []

/-- Run the system under a schedule: a list of worker indices, each entry one
granted step.  Any interleaving of the four coroutines is some schedule. -/
def searchRun (chunks : List (List Str)) (live : Str → Bool) :
    SState → List Nat → SState
  | st, [] => st
  | st, w :: tr => searchRun chunks live (searchStep chunks live st w) tr

/-- Initial state of `find_first_live_url`: every worker at the top of its
loop, `found_event` clear. -/
def searchInit (chunks : List (List Str)) : SState :=
  ⟨chunks.map fun _ => .ready 0, false⟩

/-- Has this worker coroutine terminated? -/
def isDoneStatus : WStatus → Bool
  | .done _ => true
  | _ => false

/-- All worker tasks have terminated — only then does `find_first_live_url`
return to its caller (it awaits/cancels every task in its `finally`). -/
def allDone (st : SState) : Bool := st.workers.all isDoneStatus

/-- The value `find_first_live_url` returns once every task has finished: the
result of any worker that returned a URL (`None` if none did). -/
def searchResult (st : SState) : Option Str :=
  (st.workers.filterMap fun s =>
    match s with
    | .done (some r) => some r
    | _ => none).head?

/-- Product of the working-list lengths (the total combination count). -/
def prodLens (ls : List (List Str)) : Nat := (ls.map List.length).prod

/-- Status of worker `w` (out-of-range workers read as terminated). -/
def statusOf (st : SState) (w : Nat) : WStatus := st.workers.getD w (.done none)

/-- No URL of `l` probes Live. -/
def NoLiveIn (live : Str → Bool) (l : List Str) : Prop := ∀ x ∈ l, live x = false

/-- Per-worker invariant, as a function of the shared event flag and the
worker's status: a running worker has found nothing in the batches it has
fully scanned; a worker that returned `None` either saw the event or scanned
its whole partition; a worker that returned a URL returned a Live member of
its partition. -/
def WSInv (chunks : List (List Str)) (live : Str → Bool) (ev : Bool) (w : Nat) :
    WStatus → Prop
  | .ready k => NoLiveIn live ((chunkOf chunks w).take (k * BATCH_SIZE))
  | .inFlight k => NoLiveIn live ((chunkOf chunks w).take (k * BATCH_SIZE))
  | .done none => ev = true ∨ NoLiveIn live (chunkOf chunks w)
  | .done (some r) => live r = true ∧ r ∈ chunkOf chunks w

/-- Global invariant of the search system. -/
def SearchInv (chunks : List (List Str)) (live : Str → Bool) (st : SState) : Prop :=
  st.workers.length = chunks.length ∧
  (∀ w, WSInv chunks live st.ev w (statusOf st w)) ∧
  (st.ev = true → ∃ w r, statusOf st w = .done (some r))

/-- A 20001-value list, used to drive the combination ceiling past its limit. -/
def bigVals : List Str := List.replicate 20001 ['a']

/-- Tag values with 20001 values for tag `A` and two for tag `B`. -/
def tvC1 : Str → List Str := fun t =>
  if t = ['A'] then bigVals else if t = ['B'] then [['b'], ['c']] else []

theorem bigVals_length : bigVals.length = 20001 := by
  rw [bigVals, List.length_replicate]

theorem bigVals_isEmpty : bigVals.isEmpty = false := by
  rw [bigVals, List.replicate_succ]
  rfl


set_option maxRecDepth 4000 in
/-- C3: the gacha expansion of "tokenwheel" never contains the camel-case
form "TokenWheel" that the claim (and the code's own docstrings: "also
TokenWheel, TokenWheel-2, ...") promise; the camel construction splits the
lowercase text on separators, of which "tokenwheel" has none, so the camel
form equals the title variant and is de-duplicated away.  The full expansion
is exactly the 12 default-casing candidates. -/
theorem claim_C3_no_camelcase :
    "TokenWheel".data ∉ expand_gacha_values ["tokenwheel".data] ∧
    expand_gacha_values ["tokenwheel".data] =
      ["tokenwheel".data, "tokenwheel-2".data, "tokenwheel-3".data, "tokenwheel-4".data,
       "tokenwheel-5".data, "tokenwheel-6".data, "Tokenwheel".data, "Tokenwheel-2".data,
       "Tokenwheel-3".data, "Tokenwheel-4".data, "Tokenwheel-5".data, "Tokenwheel-6".data] := by
  decide

theorem sbuildFirst_eq (tv : Str → List Str) : ∀ ts, buildListsFirst tv ts = buildLists tv ts := by
  intro ts
  induction ts with
  | nil => rfl
  | cons t ts ih =>
    simp only [buildListsFirst, buildLists, ih]
    split
    · rfl
    · congr 1
      split
      · rfl
      · rw [ite_self]

/-- C9: the first (later shadowed) definition of
`generate_urls_from_template` and the implementation invoked through the
surviving wrapper are extensionally equal — identical URL lists and identical
combination-overflow errors on every input; the first definition's extra
branch for an all-digit `T` tag appends the raw value list exactly like the
default branch. -/
theorem claim_C9_first_def_eq_wrapper : ∀ template tv,
    generate_urls_from_template_first template tv = generate_urls_from_template template tv := by
  intro template tv
  simp only [generate_urls_from_template, generate_urls_from_template_first,
    generate_urls_from_template_impl, sbuildFirst_eq]

/-- C5: `check_url` returns Live exactly when the cheap HEAD probe (issued
with its 8-unit timeout) yields status 200 or the GET fallback (issued with
its 10-unit timeout) yields status 200; the GET is issued exactly when the
HEAD did not yield 200 (a non-200 status or a raised transport exception);
both oracles may fail arbitrarily and the function still returns a boolean —
it never raises past its own boundary. -/
theorem claim_C5_check_url : ∀ head get : Nat → Except Unit Nat,
    ((check_url head get).1 = true ↔ head 8 = .ok 200 ∨ get 10 = .ok 200) ∧
    ((check_url head get).2 = false ↔ head 8 = .ok 200) := by
  intro head get
  unfold check_url
  rcases hh : head 8 with u | s
  · rcases hg : get 10 with u' | s'
    · simp
    · by_cases hs : s' = 200 <;> simp [hs]
  · by_cases hs : s = 200
    · subst hs; simp
    · rcases hg : get 10 with u' | s'
      · simp [hs]
      · by_cases hs' : s' = 200 <;> simp [hs, hs']

theorem sbuild_none (tv : Str → List Str) : ∀ ts t, t ∈ ts → tv t = [] →
    buildLists tv ts = none := by
  intro ts
  induction ts with
  | nil => intro t h; exact absurd h (List.not_mem_nil t)
  | cons t' ts ih =>
    intro t ht htv
    simp only [buildLists]
    by_cases he : (tv t').isEmpty
    · simp [he]
    · rcases List.mem_cons.1 ht with h | h
      · subst h; rw [htv] at he; exact absurd rfl he
      · simp [he, ih t h htv]

/-- C8: the generator returns the empty list — `Except.ok []`, a value
distinct by construction from the `Except.error` overflow case — whenever the
template has no markers, or some marker occurring in the template has a
missing or empty value list. -/
theorem claim_C8_empty_result : ∀ template tv,
    (extract_tags template = [] ∨ ∃ t ∈ extract_tags template, tv t = []) →
    generate_urls_from_template_impl template tv = .ok [] := by
  intro template tv h
  unfold generate_urls_from_template_impl
  rcases h with h | ⟨t, ht, htv⟩
  · simp [h]
  · by_cases he : (extract_tags template).isEmpty
    · simp [he]
    · simp [he, sbuild_none tv _ t ht htv]

theorem sparse_alnum : ∀ l t r, parseTag l = some (t, r) →
    (!t.isEmpty && t.all isAlnumCh) = true := by
  intro l t r h
  unfold parseTag at h
  split at h
  · exact absurd h (by simp)
  · rename_i he
    split at h
    · rw [Option.some.injEq, Prod.mk.injEq] at h
      rcases h with ⟨h1, _⟩
      subst h1
      simp only [Bool.not_eq_true] at he
      rw [Bool.and_eq_true, List.all_eq_true]
      refine ⟨by simp [he], fun x hx => List.mem_takeWhile_imp hx⟩
    · exact absurd h (by simp)

theorem sfind_alnum : ∀ fuel s t, t ∈ findTagsFuel fuel s →
    (!t.isEmpty && t.all isAlnumCh) = true := by
  intro fuel
  induction fuel with
  | zero => intro s t h; cases s <;> simp [findTagsFuel] at h
  | succ fuel ih =>
    intro s t h
    match s with
    | [] => simp [findTagsFuel] at h
    | c :: l =>
      simp only [findTagsFuel] at h
      split at h
      · split at h
        · rename_i t' r heq
          rcases List.mem_cons.1 h with h1 | h1
          · subst h1; exact sparse_alnum l t r heq
          · exact ih r t h1
        · exact ih l t h
      · exact ih l t h

/-- C10: every tag produced by `extract_tags` is a non-empty fully
alphanumeric string, so `valid_tags` holds of every extracted tag list and the
"Tag Hanya Boleh Huruf/Angka" rejection branch of `handle_tag_input` is
unreachable: a bracket pair containing non-alphanumeric characters is never
recognized as a marker in the first place. -/
theorem claim_C10_tags_always_valid : ∀ template, valid_tags (extract_tags template) = true := by
  intro template
  rw [valid_tags, List.all_eq_true]
  intro t ht
  exact sfind_alnum template.length template t ht

theorem shex_ne_slash : ∀ n, hexDigit n ≠ '/' := by
  intro n
  rcases Nat.lt_or_ge n 16 with h | h
  · interval_cases n <;> decide
  · rw [hexDigit, List.getD_eq_default _ _ (by simpa using h)]
    decide

theorem spercent_no_slash : ∀ b, '/' ∉ percentByte b := by
  intro b h
  rcases List.mem_cons.1 h with h1 | h1
  · exact absurd h1 (by decide)
  · rcases List.mem_cons.1 h1 with h2 | h2
    · exact shex_ne_slash _ h2.symm
    · rcases List.mem_cons.1 h2 with h3 | h3
      · exact shex_ne_slash _ h3.symm
      · exact absurd h3 (List.not_mem_nil _)

theorem squoteCh_no_slash : ∀ c, '/' ∉ quoteCh c := by
  intro c h
  unfold quoteCh at h
  split at h
  · rename_i hsafe
    rw [List.mem_singleton] at h
    subst h
    exact absurd hsafe (by decide)
  · rcases List.mem_flatMap.1 h with ⟨b, _, hmem⟩
    exact spercent_no_slash b hmem

theorem squoteCh_slash : quoteCh '/' = "%2F".data := by decide

/-- C6: percent-encoding a substituted value with the empty safe set never
leaves a literal '/' in the encoded value, and every value containing '/'
yields the escape "%2F" as a substring of its encoding. -/
theorem claim_C6_percent_encode_slash : ∀ v : Str, '/' ∉ pyQuote v ∧ ('/' ∈ v → "%2F".data <:+: pyQuote v) := by
  intro v
  constructor
  · intro h
    rcases List.mem_flatMap.1 h with ⟨c, _, h'⟩
    exact squoteCh_no_slash c h'
  · intro hv
    obtain ⟨s, t, rfl⟩ := List.append_of_mem hv
    refine ⟨pyQuote s, pyQuote t, ?_⟩
    simp [pyQuote, squoteCh_slash]

theorem smem_dedupeAux {α : Type} [DecidableEq α] :
    ∀ (l seen : List α) (x : α), x ∈ dedupeAux seen l ↔ (x ∈ l ∧ x ∉ seen) := by
  intro l
  induction l with
  | nil => intro seen x; simp [dedupeAux]
  | cons y ys ih =>
    intro seen x
    by_cases hy : y ∈ seen
    · rw [dedupeAux, if_pos hy, ih]
      constructor
      · rintro ⟨h1, h2⟩; exact ⟨List.mem_cons_of_mem _ h1, h2⟩
      · rintro ⟨h1, h2⟩
        rcases List.mem_cons.1 h1 with rfl | h1
        · exact absurd hy h2
        · exact ⟨h1, h2⟩
    · rw [dedupeAux, if_neg hy]
      by_cases hxy : x = y
      · subst hxy
        simp [hy]
      · rw [List.mem_cons]
        constructor
        · rintro (rfl | h)
          · exact ⟨List.mem_cons_self _ _, hy⟩
          · rw [ih] at h
            rcases h with ⟨h1, h2⟩
            exact ⟨List.mem_cons_of_mem _ h1, fun hs => h2 (List.mem_cons_of_mem _ hs)⟩
        · rintro ⟨h1, h2⟩
          rcases List.mem_cons.1 h1 with rfl | h1
          · exact absurd rfl hxy
          · right
            rw [ih]
            exact ⟨h1, by simp [hxy, h2]⟩

theorem sdedupeAux_nodup {α : Type} [DecidableEq α] :
    ∀ (l seen : List α), (dedupeAux seen l).Nodup := by
  intro l
  induction l with
  | nil => intro seen; simp [dedupeAux]
  | cons y ys ih =>
    intro seen
    by_cases hy : y ∈ seen
    · rw [dedupeAux, if_pos hy]; exact ih seen
    · rw [dedupeAux, if_neg hy, List.nodup_cons]
      refine ⟨fun h => ?_, ih _⟩
      rw [smem_dedupeAux] at h
      exact h.2 (List.mem_cons_self _ _)

theorem sdedupeAux_eq_self {α : Type} [DecidableEq α] :
    ∀ (l seen : List α), l.Nodup → (∀ x ∈ l, x ∉ seen) → dedupeAux seen l = l := by
  intro l
  induction l with
  | nil => intro seen _ _; rfl
  | cons y ys ih =>
    intro seen hnd hs
    rw [dedupeAux, if_neg (hs y (List.mem_cons_self _ _))]
    congr 1
    refine ih _ (List.Nodup.of_cons hnd) fun x hx hmem => ?_
    rcases List.mem_cons.1 hmem with rfl | h
    · exact (List.nodup_cons.1 hnd).1 hx
    · exact hs x (List.mem_cons_of_mem _ hx) h

theorem sdedupe_eq_self {α : Type} [DecidableEq α] (l : List α) (h : l.Nodup) : dedupe l = l :=
  sdedupeAux_eq_self l [] h (by simp)

theorem sdedupe_ne_nil {α : Type} [DecidableEq α] (l : List α) (h : l ≠ []) : dedupe l ≠ [] := by
  match l with
  | [] => exact absurd rfl h
  | x :: xs => simp [dedupe, dedupeAux]

theorem spyTitleAux_length : ∀ (s : Str) (b : Bool), (pyTitleAux b s).length = s.length := by
  intro s
  induction s with
  | nil => intro b; rfl
  | cons c r ih =>
    intro b
    rw [pyTitleAux]
    split <;> simp [ih]

theorem spyTitle_length (s : Str) : (pyTitle s).length = s.length := spyTitleAux_length s false

theorem spyLower_length (s : Str) : (pyLower s).length = s.length := List.length_map s toLowerCh

theorem sbase_no_camel (name : Str)
    (h : (hasSubstr "token".data (pyLower name) && hasSubstr "wheel".data (pyLower name)) = false) :
    (expand_gacha_name_base name).Nodup ∧
    (∀ b ∈ expand_gacha_name_base name, b.length = name.length) ∧
    (expand_gacha_name_base name).length ≤ 3 := by
  rw [expand_gacha_name_base]
  simp only [h, if_false, Bool.false_eq_true]
  by_cases ht : pyTitle name ∈ [name]
  · rw [if_pos ht]
    rw [List.mem_singleton] at ht
    by_cases hl : pyLower name ∈ [name]
    · rw [if_pos hl]
      rw [List.mem_singleton] at hl
      rw [sdedupe_eq_self _ (by simp)]
      refine ⟨by simp, ?_, by simp⟩
      intro b hb
      rw [List.mem_singleton] at hb
      subst hb; rfl
    · rw [if_neg hl]
      rw [List.mem_singleton] at hl
      have h1 : name ≠ pyLower name := fun hh => hl hh.symm
      have hnd : ([name] ++ [pyLower name]).Nodup := by
        simp [List.nodup_cons, h1]
      rw [sdedupe_eq_self _ hnd]
      refine ⟨hnd, ?_, by simp⟩
      intro b hb
      rcases List.mem_append.1 hb with h1 | h1 <;> rw [List.mem_singleton] at h1 <;> subst h1
      · rfl
      · exact spyLower_length name
  · rw [if_neg ht]
    rw [List.mem_singleton] at ht
    by_cases hl : pyLower name ∈ [name] ++ [pyTitle name]
    · rw [if_pos hl]
      have h1 : name ≠ pyTitle name := fun hh => ht hh.symm
      have hnd : ([name] ++ [pyTitle name]).Nodup := by
        simp [List.nodup_cons, h1]
      rw [sdedupe_eq_self _ hnd]
      refine ⟨hnd, ?_, by simp⟩
      intro b hb
      rcases List.mem_append.1 hb with h1 | h1 <;> rw [List.mem_singleton] at h1 <;> subst h1
      · rfl
      · exact spyTitle_length name
    · rw [if_neg hl]
      simp only [List.mem_append, List.mem_singleton, not_or] at hl
      have h1 : name ≠ pyTitle name := fun hh => ht hh.symm
      have h2 : name ≠ pyLower name := fun hh => hl.1 hh.symm
      have h3 : pyTitle name ≠ pyLower name := fun hh => hl.2 hh.symm
      have hnd : (([name] ++ [pyTitle name]) ++ [pyLower name]).Nodup := by
        simp [List.nodup_cons, h1, h2, h3]
      rw [sdedupe_eq_self _ hnd]
      refine ⟨hnd, ?_, by simp⟩
      intro b hb
      simp only [List.append_assoc, List.mem_append, List.mem_singleton] at hb
      rcases hb with h1 | h1 | h1 <;> subst h1
      · rfl
      · exact spyTitle_length name
      · exact spyLower_length name

theorem sgachaSuffixed_length (b : Str) : (gachaSuffixed b).length = 6 := rfl

theorem sgachaSuffixed_nodup (b : Str) : (gachaSuffixed b).Nodup := by
  rw [gachaSuffixed, List.nodup_cons]
  constructor
  · intro h
    rcases List.mem_map.1 h with ⟨d, _, hd⟩
    have := congrArg List.length hd
    simp at this
  · refine List.Nodup.map ?_ (by decide)
    intro d d' h
    have := List.append_cancel_left h
    simpa using this

theorem sgachaSuffixed_disjoint (b b' : Str) (hne : b ≠ b') (hlen : b.length = b'.length) :
    List.Disjoint (gachaSuffixed b) (gachaSuffixed b') := by
  intro x hx hx'
  rw [gachaSuffixed, List.mem_cons] at hx hx'
  rcases hx with rfl | hx
  · rcases hx' with h1 | h1
    · exact hne h1
    · rcases List.mem_map.1 h1 with ⟨d, _, hd⟩
      have := congrArg List.length hd
      simp [hlen] at this
  · rcases List.mem_map.1 hx with ⟨d, _, hd⟩
    subst hd
    rcases hx' with h1 | h1
    · have := congrArg List.length h1
      simp [hlen] at this
    · rcases List.mem_map.1 h1 with ⟨d', _, hd'⟩
      exact hne ((List.append_inj hd' hlen.symm).1).symm

theorem sflat_suffixed_nodup (bs : List Str) (L : Nat) (hnd : bs.Nodup)
    (hlen : ∀ b ∈ bs, b.length = L) : (bs.flatMap gachaSuffixed).Nodup := by
  refine List.nodup_flatMap.2 ⟨fun b _ => sgachaSuffixed_nodup b, ?_⟩
  refine List.Pairwise.imp_of_mem ?_ hnd
  intro a b ha hb hne
  exact sgachaSuffixed_disjoint a b hne ((hlen a ha).trans (hlen b hb).symm)

theorem sflat_suffixed_length (bs : List Str) :
    (bs.flatMap gachaSuffixed).length = 6 * bs.length := by
  induction bs with
  | nil => rfl
  | cons b bs ih =>
    rw [List.flatMap_cons, List.length_append, ih, sgachaSuffixed_length, List.length_cons]
    ring

/-- C2 (amended): for every single raw gacha value whose lower-cased text
does not contain both "token" and "wheel", `expand_gacha_values` produces
exactly d × 6 de-duplicated candidates, where d ≤ 3 is the number of distinct
casing variants of the value; in particular for "Skull" (whose title case
equals the original, so d = 2) the result is exactly the twelve enumerated
candidates {Skull, skull} × {"", -2, ..., -6}. -/
theorem claim_C2_amended :
    (∀ name : Str,
      (hasSubstr "token".data (pyLower name) && hasSubstr "wheel".data (pyLower name)) = false →
      (expand_gacha_values [name]).length = 6 * (expand_gacha_name_base name).length ∧
      (expand_gacha_name_base name).length ≤ 3) ∧
    expand_gacha_values ["Skull".data] =
      ["Skull".data, "Skull-2".data, "Skull-3".data, "Skull-4".data, "Skull-5".data,
       "Skull-6".data, "skull".data, "skull-2".data, "skull-3".data, "skull-4".data,
       "skull-5".data, "skull-6".data] := by
  constructor
  · intro name h
    obtain ⟨hnd, hlen, hle⟩ := sbase_no_camel name h
    have heq : expand_gacha_values [name] = (expand_gacha_name_base name).flatMap gachaSuffixed := by
      rw [expand_gacha_values]
      simp only [List.flatMap_cons, List.flatMap_nil, List.append_nil]
      exact sdedupe_eq_self _ (sflat_suffixed_nodup _ name.length hnd hlen)
    rw [heq, sflat_suffixed_length]
    exact ⟨rfl, hle⟩
  · decide



theorem sprodLens_cons (l : List Str) (ls : List (List Str)) :
    prodLens (l :: ls) = l.length * prodLens ls := by
  simp [prodLens]

theorem sprodLens_pos (ls : List (List Str)) (h : ∀ l ∈ ls, l ≠ []) : 1 ≤ prodLens ls := by
  induction ls with
  | nil => simp [prodLens]
  | cons l ls ih =>
    rw [sprodLens_cons]
    have h1 : 1 ≤ l.length := by
      rcases l with _ | ⟨x, xs⟩
      · exact absurd rfl (h [] (List.mem_cons_self _ _))
      · simp
    have h2 := ih fun x hx => h x (List.mem_cons_of_mem _ hx)
    calc 1 = 1 * 1 := by ring
    _ ≤ l.length * prodLens ls := Nat.mul_le_mul h1 h2

theorem scheckCombos_none : ∀ (ls : List (List Str)) (acc : Nat), 1 ≤ acc →
    (∀ l ∈ ls, l ≠ []) → acc * prodLens ls ≤ MAX_COMBINATIONS →
    checkCombos acc ls = none := by
  intro ls
  induction ls with
  | nil => intro acc _ _ _; rfl
  | cons l ls ih =>
    intro acc hacc hne hle
    rw [checkCombos]
    have hrest : ∀ x ∈ ls, x ≠ [] := fun x hx => hne x (List.mem_cons_of_mem _ hx)
    have hp := sprodLens_pos ls hrest
    have hmul : acc * l.length * prodLens ls = acc * prodLens (l :: ls) := by
      rw [sprodLens_cons]; ring
    have hle2 : acc * l.length ≤ MAX_COMBINATIONS := by
      calc acc * l.length = acc * l.length * 1 := by ring
      _ ≤ acc * l.length * prodLens ls := Nat.mul_le_mul_left _ hp
      _ = acc * prodLens (l :: ls) := hmul
      _ ≤ MAX_COMBINATIONS := hle
    rw [if_neg (by omega)]
    refine ih (acc * l.length) ?_ hrest ?_
    · have h1 : 1 ≤ l.length := by
        rcases l with _ | ⟨x, xs⟩
        · exact absurd rfl (hne [] (List.mem_cons_self _ _))
        · simp
      calc 1 = 1 * 1 := by ring
      _ ≤ acc * l.length := Nat.mul_le_mul hacc h1
    · rw [hmul]; exact hle

theorem scheckCombos_some : ∀ (ls : List (List Str)) (acc : Nat), 1 ≤ acc →
    acc ≤ MAX_COMBINATIONS → (∀ l ∈ ls, l ≠ []) →
    MAX_COMBINATIONS < acc * prodLens ls →
    ∃ j < ls.length, checkCombos acc ls = some (acc * prodLens (ls.take (j + 1))) ∧
      MAX_COMBINATIONS < acc * prodLens (ls.take (j + 1)) ∧
      acc * prodLens (ls.take j) ≤ MAX_COMBINATIONS := by
  intro ls
  induction ls with
  | nil =>
    intro acc _ hle _ hgt
    rw [prodLens] at hgt
    simp at hgt
    omega
  | cons l ls ih =>
    intro acc hacc hle hne hgt
    by_cases hbig : acc * l.length > MAX_COMBINATIONS
    · refine ⟨0, by simp, ?_, ?_, ?_⟩
      · rw [checkCombos, if_pos (by omega)]
        congr 1
        rw [List.take_succ_cons, List.take_zero, sprodLens_cons]
        simp [prodLens]
      · rw [List.take_succ_cons, List.take_zero, sprodLens_cons]
        simp only [prodLens, List.map_nil, List.prod_nil, Nat.mul_one]
        omega
      · simp [prodLens]
        omega
    · push_neg at hbig
      have h1 : 1 ≤ l.length := by
        rcases l with _ | ⟨x, xs⟩
        · exact absurd rfl (hne [] (List.mem_cons_self _ _))
        · simp
      have hacc2 : 1 ≤ acc * l.length := by
        calc 1 = 1 * 1 := by ring
        _ ≤ acc * l.length := Nat.mul_le_mul hacc h1
      have hrest : ∀ x ∈ ls, x ≠ [] := fun x hx => hne x (List.mem_cons_of_mem _ hx)
      have hgt2 : MAX_COMBINATIONS < acc * l.length * prodLens ls := by
        rw [Nat.mul_assoc, ← sprodLens_cons]; exact hgt
      obtain ⟨j, hj, hc, hg, hl2⟩ := ih (acc * l.length) hacc2 hbig hrest hgt2
      refine ⟨j + 1, by simpa using hj, ?_, ?_, ?_⟩
      · rw [checkCombos, if_neg (by omega), hc]
        congr 1
        rw [List.take_succ_cons, sprodLens_cons]
        ring
      · rw [List.take_succ_cons, sprodLens_cons]
        calc MAX_COMBINATIONS < acc * l.length * prodLens (ls.take (j + 1)) := hg
        _ = acc * (l.length * prodLens (ls.take (j + 1))) := by ring
      · rw [List.take_succ_cons, sprodLens_cons]
        calc acc * (l.length * prodLens (ls.take j)) 
            = acc * l.length * prodLens (ls.take j) := by ring
        _ ≤ MAX_COMBINATIONS := hl2

theorem sflatMap_const_length {α β : Type} (l : List α) (g : α → List β) (k : Nat)
    (h : ∀ x, (g x).length = k) : (l.flatMap g).length = l.length * k := by
  induction l with
  | nil => simp
  | cons x xs ih =>
    rw [List.flatMap_cons, List.length_append, ih, h, List.length_cons]
    ring

theorem scartProd_length : ∀ ls : List (List Str), (cartProd ls).length = prodLens ls := by
  intro ls
  induction ls with
  | nil => simp [cartProd, prodLens]
  | cons l ls ih =>
    rw [cartProd, sprodLens_cons, ← ih]
    exact sflatMap_const_length l _ _ fun x => by simp

theorem sexpand_base_ne_nil (v : Str) : expand_gacha_name_base v ≠ [] := by
  simp only [expand_gacha_name_base]
  apply sdedupe_ne_nil
  apply List.ne_nil_of_mem (a := v)
  repeat' split
  all_goals simp

theorem sexpand_values_ne_nil (vals : List Str) (h : ¬vals.isEmpty) :
    expand_gacha_values vals ≠ [] := by
  rcases vals with _ | ⟨v, vs⟩
  · simp at h
  · rw [expand_gacha_values]
    apply sdedupe_ne_nil
    rw [List.flatMap_cons]
    rcases hb : expand_gacha_name_base v with _ | ⟨b, bs⟩
    · exact absurd hb (sexpand_base_ne_nil v)
    · rw [List.flatMap_cons]
      simp [gachaSuffixed]

theorem sbuildLists_ne_nil (tv : Str → List Str) :
    ∀ ts ls, buildLists tv ts = some ls → ∀ l ∈ ls, l ≠ [] := by
  intro ts
  induction ts with
  | nil =>
    intro ls h l hl
    rw [buildLists] at h
    rw [Option.some.injEq] at h
    subst h
    exact absurd hl (List.not_mem_nil l)
  | cons t ts ih =>
    intro ls h l hl
    rw [buildLists] at h
    split at h
    · exact absurd h (by simp)
    · rename_i hne
      rcases Option.map_eq_some'.1 h with ⟨ls', hls', rfl⟩
      rcases List.mem_cons.1 hl with rfl | hmem
      · split
        · rename_i hg
          exact sexpand_values_ne_nil _ hne
        · intro habs
          rw [habs] at hne
          exact hne rfl
      · exact ih ls' hls' l hmem

/-- C1 (amended): for a template with distinct markers whose expanded
working lists are all non-empty, the generator returns exactly ∏nᵢ URLs when
∏nᵢ ≤ 20000, and otherwise raises the overflow error carrying the first
incrementally accumulated prefix product n₁⋯nⱼ that exceeds 20000 — the
check runs on the running product, before the cartesian product is built. -/
theorem claim_C1_amended : ∀ (template : Str) (tv : Str → List Str) (lists : List (List Str)),
    (extract_tags template).Nodup → extract_tags template ≠ [] →
    buildLists tv (extract_tags template) = some lists →
    ((prodLens lists ≤ MAX_COMBINATIONS →
      ∃ urls, generate_urls_from_template_impl template tv = .ok urls ∧
        urls.length = prodLens lists) ∧
     (MAX_COMBINATIONS < prodLens lists →
      ∃ j < lists.length,
        generate_urls_from_template_impl template tv = .error (prodLens (lists.take (j + 1))) ∧
        MAX_COMBINATIONS < prodLens (lists.take (j + 1)) ∧
        prodLens (lists.take j) ≤ MAX_COMBINATIONS)) := by
  intro template tv lists hnd hne hb
  have hempty : (extract_tags template).isEmpty = false := by
    rcases h : extract_tags template with _ | _
    · exact absurd h hne
    · rfl
  have hlne := sbuildLists_ne_nil tv _ lists hb
  constructor
  · intro hle
    refine ⟨(cartProd lists).map (substCombo template (extract_tags template)), ?_, ?_⟩
    · rw [generate_urls_from_template_impl]
      simp only [hempty, Bool.false_eq_true, if_false, hb]
      rw [scheckCombos_none lists 1 (le_refl 1) hlne (by simpa using hle)]
    · rw [List.length_map, scartProd_length]
  · intro hgt
    obtain ⟨j, hj, hc, hg, hl2⟩ :=
      scheckCombos_some lists 1 (le_refl 1) (by simp [MAX_COMBINATIONS]) hlne (by simpa using hgt)
    refine ⟨j, hj, ?_, by simpa using hg, by simpa using hl2⟩
    rw [generate_urls_from_template_impl]
    simp only [hempty, Bool.false_eq_true, if_false, hb]
    rw [hc]
    simp

theorem sflatMap_ov_length (b : List Str) :
    (b.flatMap overviewVariantUrls).length = 5 * b.length := by
  rw [sflatMap_const_length b _ 5 fun x => by simp [overviewVariantUrls, OVERVIEW_VARIANTS]]
  ring

/-- C7 (amended): in banner mode the candidate set is the splash expansion
first, followed by the overview expansion in which every base URL is expanded
into exactly 5 URLs by replace-all of the substring "/overview.jpg" with each
of the five known spellings (in ordinary inputs that substring occurs only as
the trailing path segment); the 20000 ceiling applies to each of the two
sub-expansions independently, and an overflow in either aborts the whole
request with that sub-expansion's count. -/
theorem claim_C7_amended :
    (∀ (tv : Str → List Str) (s b : List Str),
       generate_urls_from_template TEMPLATE_BANNER_SPLASH tv = .ok s →
       generate_urls_from_template TEMPLATE_BANNER_OVERVIEW tv = .ok b →
       bannerCandidates tv = .ok (s ++ b.flatMap overviewVariantUrls) ∧
       (b.flatMap overviewVariantUrls).length = 5 * b.length ∧
       (∀ x ∈ b.flatMap overviewVariantUrls, ∃ bb ∈ b, ∃ v ∈ OVERVIEW_VARIANTS,
          x = pyReplace bb "/overview.jpg".data ('/' :: (v ++ ".jpg".data)))) ∧
    (∀ (tv : Str → List Str) (e : Nat), bannerCandidates tv = .error e →
       generate_urls_from_template TEMPLATE_BANNER_SPLASH tv = .error e ∨
       generate_urls_from_template TEMPLATE_BANNER_OVERVIEW tv = .error e) := by
  constructor
  · intro tv s b hs hb
    refine ⟨?_, sflatMap_ov_length b, ?_⟩
    · rw [bannerCandidates, hs, hb]
    · intro x hx
      rcases List.mem_flatMap.1 hx with ⟨bb, hbb, hx'⟩
      rcases List.mem_map.1 hx' with ⟨v, hv, hveq⟩
      exact ⟨bb, hbb, v, hv, hveq.symm⟩
  · intro tv e h
    rw [bannerCandidates] at h
    rcases hs : generate_urls_from_template TEMPLATE_BANNER_SPLASH tv with e1 | s1
    · rw [hs] at h
      simp only [Except.error.injEq] at h
      subst h
      exact Or.inl rfl
    · rw [hs] at h
      rcases ho : generate_urls_from_template TEMPLATE_BANNER_OVERVIEW tv with e2 | b2
      · rw [ho] at h
        simp only [Except.error.injEq] at h
        subst h
        exact Or.inr rfl
      · rw [ho] at h
        exact absurd h (by simp)



theorem sgetD_set_self {α : Type} (l : List α) (w : Nat) (a d : α) (h : w < l.length) :
    (l.set w a).getD w d = a := by
  rw [List.getD_eq_getElem?_getD, List.getElem?_set_self h]
  rfl

theorem sgetD_set_ne {α : Type} (l : List α) (w w' : Nat) (a d : α) (h : w ≠ w') :
    (l.set w a).getD w' d = l.getD w' d := by
  rw [List.getD_eq_getElem?_getD, List.getElem?_set_ne h, ← List.getD_eq_getElem?_getD]

theorem sactive_lt (st : SState) (w : Nat) (h : isDoneStatus (statusOf st w) = false) :
    w < st.workers.length := by
  by_contra hge
  push_neg at hge
  rw [statusOf, List.getD_eq_default _ _ hge] at h
  simp [isDoneStatus] at h

theorem sstep_workers_length (chunks : List (List Str)) (live : Str → Bool) (st : SState)
    (w : Nat) : (searchStep chunks live st w).workers.length = st.workers.length := by
  rw [searchStep]
  split
  · split_ifs <;> simp
  · split <;> simp
  · rfl

theorem srun_workers_length (chunks : List (List Str)) (live : Str → Bool) :
    ∀ (tr : List Nat) (st : SState),
    (searchRun chunks live st tr).workers.length = st.workers.length := by
  intro tr
  induction tr with
  | nil => intro st; rfl
  | cons w tr ih => intro st; rw [searchRun, ih, sstep_workers_length]

theorem sev_step (chunks : List (List Str)) (live : Str → Bool) (st : SState) (w : Nat)
    (h : st.ev = true) : (searchStep chunks live st w).ev = true := by
  rw [searchStep]
  split
  · split_ifs <;> exact h
  · split
    · rfl
    · exact h
  · exact h

theorem sev_run (chunks : List (List Str)) (live : Str → Bool) :
    ∀ (tr : List Nat) (st : SState), st.ev = true →
    (searchRun chunks live st tr).ev = true := by
  intro tr
  induction tr with
  | nil => intro st h; exact h
  | cons w tr ih => intro st h; exact ih _ (sev_step chunks live st w h)

theorem sstatus_step_ne (chunks : List (List Str)) (live : Str → Bool) (st : SState)
    (w w' : Nat) (h : w' ≠ w) :
    statusOf (searchStep chunks live st w') w = statusOf st w := by
  rw [searchStep]
  split
  · split_ifs <;> · rw [statusOf, statusOf]; exact sgetD_set_ne _ w' w _ _ h
  · split <;> · rw [statusOf, statusOf]; exact sgetD_set_ne _ w' w _ _ h
  · rfl

theorem sstatus_step_done (chunks : List (List Str)) (live : Str → Bool) (st : SState)
    (w w' : Nat) (r : Option Str) (h : statusOf st w = .done r) :
    statusOf (searchStep chunks live st w') w = .done r := by
  by_cases hw : w' = w
  · subst hw
    rw [statusOf] at h
    rw [searchStep, h]
    exact h
  · rw [sstatus_step_ne chunks live st w w' hw]
    exact h

theorem sstatus_run_done (chunks : List (List Str)) (live : Str → Bool) :
    ∀ (tr : List Nat) (st : SState) (w : Nat) (r : Option Str),
    statusOf st w = .done r →
    statusOf (searchRun chunks live st tr) w = .done r := by
  intro tr
  induction tr with
  | nil => intro st w r h; exact h
  | cons w' tr ih =>
    intro st w r h
    exact ih _ w r (sstatus_step_done chunks live st w w' r h)

theorem slaunch_ev (chunks : List (List Str)) (st : SState) (w : Nat) (h : st.ev = true) :
    launchProbes chunks st w = [] := by
  rw [launchProbes]
  split
  · split_ifs <;> rfl
  · rfl







theorem sInv_init (chunks : List (List Str)) (live : Str → Bool) :
    SearchInv chunks live (searchInit chunks) := by
  refine ⟨by simp [searchInit], ?_, ?_⟩
  · intro w
    by_cases h : w < chunks.length
    · have hst : statusOf (searchInit chunks) w = .ready 0 := by
        rw [statusOf, searchInit]
        rw [List.getD_eq_getElem _ _ (by simpa using h)]
        simp
      rw [hst]
      intro x hx
      simp at hx
    · push_neg at h
      have hst : statusOf (searchInit chunks) w = .done none := by
        rw [statusOf, searchInit]
        exact List.getD_eq_default _ _ (by simpa using h)
      rw [hst]
      right
      intro x hx
      rw [chunkOf, List.getD_eq_default _ _ h] at hx
      exact absurd hx (List.not_mem_nil x)
  · intro h
    simp [searchInit] at h

theorem sWSInv_ev_mono (chunks : List (List Str)) (live : Str → Bool) (w : Nat) :
    ∀ (s : WStatus) (ev : Bool), WSInv chunks live ev w s → WSInv chunks live true w s := by
  intro s ev h
  cases s with
  | ready k => exact h
  | inFlight k => exact h
  | done r =>
    cases r with
    | none => exact Or.inl rfl
    | some u => exact h

theorem sInv_set (chunks : List (List Str)) (live : Str → Bool) (st : SState) (w : Nat)
    (a : WStatus) (hwlt : w < st.workers.length) (hInv : SearchInv chunks live st)
    (hnd : ∀ r, statusOf st w ≠ .done (some r))
    (ha : WSInv chunks live st.ev w a) :
    SearchInv chunks live ⟨st.workers.set w a, st.ev⟩ := by
  obtain ⟨hlen, hwi, hev⟩ := hInv
  refine ⟨by simpa using hlen, ?_, ?_⟩
  · intro w'
    by_cases hww : w' = w
    · subst hww
      show WSInv chunks live st.ev w' ((st.workers.set w' a).getD w' (.done none))
      rw [sgetD_set_self _ _ _ _ hwlt]
      exact ha
    · show WSInv chunks live st.ev w' ((st.workers.set w a).getD w' (.done none))
      rw [sgetD_set_ne _ _ _ _ _ fun heq => hww heq.symm]
      exact hwi w'
  · intro hevT
    obtain ⟨w0, r0, h0⟩ := hev hevT
    have hw0 : w0 ≠ w := fun heq => hnd r0 (heq ▸ h0)
    refine ⟨w0, r0, ?_⟩
    show (st.workers.set w a).getD w0 (.done none) = _
    rw [sgetD_set_ne _ _ _ _ _ fun heq => hw0 heq.symm]
    exact h0

theorem sInv_set_found (chunks : List (List Str)) (live : Str → Bool) (st : SState) (w : Nat)
    (u : Str) (hwlt : w < st.workers.length) (hInv : SearchInv chunks live st)
    (hu : live u = true) (humem : u ∈ chunkOf chunks w) :
    SearchInv chunks live ⟨st.workers.set w (.done (some u)), true⟩ := by
  obtain ⟨hlen, hwi, hev⟩ := hInv
  refine ⟨by simpa using hlen, ?_, ?_⟩
  · intro w'
    by_cases hww : w' = w
    · subst hww
      show WSInv chunks live true w' ((st.workers.set w' _).getD w' (.done none))
      rw [sgetD_set_self _ _ _ _ hwlt]
      exact ⟨hu, humem⟩
    · show WSInv chunks live true w' ((st.workers.set w _).getD w' (.done none))
      rw [sgetD_set_ne _ _ _ _ _ fun heq => hww heq.symm]
      exact sWSInv_ev_mono chunks live w' _ _ (hwi w')
  · intro _
    refine ⟨w, u, ?_⟩
    show (st.workers.set w _).getD w (.done none) = _
    rw [sgetD_set_self _ _ _ _ hwlt]

theorem sInv_step (chunks : List (List Str)) (live : Str → Bool) (st : SState) (w : Nat)
    (hInv : SearchInv chunks live st) :
    SearchInv chunks live (searchStep chunks live st w) := by
  rcases hst : statusOf st w with k | k | r
  · have hwlt : w < st.workers.length := sactive_lt st w (by rw [hst]; rfl)
    have hnd : ∀ r, statusOf st w ≠ .done (some r) := by rw [hst]; intro r h; cases h
    have hnl : NoLiveIn live ((chunkOf chunks w).take (k * BATCH_SIZE)) := by
      have h2 := hInv.2.1 w
      rw [hst] at h2
      exact h2
    rw [statusOf] at hst
    simp only [searchStep, hst]
    by_cases hex : (chunkOf chunks w).length ≤ k * BATCH_SIZE
    · rw [if_pos hex]
      refine sInv_set chunks live st w _ hwlt hInv hnd (Or.inr ?_)
      rw [← List.take_of_length_le hex]
      exact hnl
    · rw [if_neg hex]
      by_cases hevb : st.ev = true
      · rw [if_pos hevb]
        exact sInv_set chunks live st w _ hwlt hInv hnd (Or.inl hevb)
      · rw [if_neg hevb]
        exact sInv_set chunks live st w _ hwlt hInv hnd hnl
  · have hwlt : w < st.workers.length := sactive_lt st w (by rw [hst]; rfl)
    have hnd : ∀ r, statusOf st w ≠ .done (some r) := by rw [hst]; intro r h; cases h
    have hnl : NoLiveIn live ((chunkOf chunks w).take (k * BATCH_SIZE)) := by
      have h2 := hInv.2.1 w
      rw [hst] at h2
      exact h2
    rw [statusOf] at hst
    simp only [searchStep, hst]
    cases hfind : (batchOf chunks w k).find? live with
    | some u =>
      refine sInv_set_found chunks live st w u hwlt hInv (List.find?_some hfind) ?_
      have hmem := List.mem_of_find?_eq_some hfind
      rw [batchOf] at hmem
      exact List.drop_subset _ _ (List.take_subset _ _ hmem)
    | none =>
      refine sInv_set chunks live st w _ hwlt hInv hnd ?_
      have hb : NoLiveIn live (batchOf chunks w k) := by
        intro x hx
        have h3 := List.find?_eq_none.1 hfind x hx
        rwa [Bool.not_eq_true] at h3
      intro x hx
      rw [show (k + 1) * BATCH_SIZE = k * BATCH_SIZE + BATCH_SIZE from by ring,
        List.take_add] at hx
      rcases List.mem_append.1 hx with h1 | h1
      · exact hnl x h1
      · exact hb x h1
  · rw [statusOf] at hst
    simp only [searchStep, hst]
    exact hInv

theorem sInv_run (chunks : List (List Str)) (live : Str → Bool) :
    ∀ (tr : List Nat) (st : SState), SearchInv chunks live st →
    SearchInv chunks live (searchRun chunks live st tr) := by
  intro tr
  induction tr with
  | nil => intro st h; exact h
  | cons w tr ih => intro st h; exact ih _ (sInv_step chunks live st w h)

theorem sstrided_subset : ∀ (fuel : Nat) (l : List Str) (x : Str),
    x ∈ stridedFuel fuel l → x ∈ l := by
  intro fuel
  induction fuel with
  | zero => intro l x h; simp [stridedFuel] at h
  | succ fuel ih =>
    intro l x h
    match l with
    | [] => simp [stridedFuel] at h
    | y :: ys =>
      rw [stridedFuel] at h
      rcases List.mem_cons.1 h with rfl | h1
      · exact List.mem_cons_self _ _
      · exact List.mem_cons_of_mem _ (List.drop_subset _ _ (ih _ x h1))

theorem smem_strided : ∀ (j fuel : Nat) (l : List Str) (x : Str), l.length ≤ fuel →
    l[j * WORKERS]? = some x → x ∈ stridedFuel fuel l := by
  intro j
  induction j with
  | zero =>
    intro fuel l x hf h
    match l, fuel with
    | [], _ => simp at h
    | y :: ys, 0 => simp at hf
    | y :: ys, fuel + 1 =>
      simp at h
      rw [stridedFuel]
      exact h ▸ List.mem_cons_self _ _
  | succ j ih =>
    intro fuel l x hf h
    match l, fuel with
    | [], _ => simp at h
    | y :: ys, 0 => simp at hf
    | y :: ys, fuel + 1 =>
      rw [stridedFuel]
      refine List.mem_cons_of_mem _ (ih fuel (ys.drop (WORKERS - 1)) x ?_ ?_)
      · have h1 : ys.length ≤ fuel := by
          simp at hf
          omega
        have h2 : (ys.drop (WORKERS - 1)).length ≤ ys.length := by
          rw [List.length_drop]
          omega
        omega
      · rw [List.getElem?_drop]
        have harith : WORKERS - 1 + j * WORKERS = (j + 1) * WORKERS - 1 := by
          simp [WORKERS]
          omega
        rw [harith]
        have h3 : (j + 1) * WORKERS - 1 + 1 = (j + 1) * WORKERS := by
          simp [WORKERS]
          omega
        rw [← List.getElem?_cons_succ (a := y), h3]
        exact h

theorem schunkOf_roundRobin (urls : List Str) (w : Nat) (hw : w < WORKERS) :
    chunkOf (roundRobinChunks urls) w =
      stridedFuel (urls.drop w).length (urls.drop w) := by
  rw [chunkOf, roundRobinChunks]
  rw [List.getD_eq_getElem _ _ (by simpa using hw)]
  rw [List.getElem_map]
  congr 1 <;> rw [List.getElem_range]

theorem sroundRobin_length (urls : List Str) : (roundRobinChunks urls).length = WORKERS := by
  simp [roundRobinChunks]

theorem scoverage (urls : List Str) (u : Str) (h : u ∈ urls) :
    ∃ w, w < WORKERS ∧ u ∈ chunkOf (roundRobinChunks urls) w := by
  obtain ⟨j, hj, hjeq⟩ := List.mem_iff_getElem.1 h
  have hWpos : 0 < WORKERS := by simp [WORKERS]
  refine ⟨j % WORKERS, Nat.mod_lt _ hWpos, ?_⟩
  rw [schunkOf_roundRobin urls _ (Nat.mod_lt _ hWpos)]
  apply smem_strided (j / WORKERS) _ _ _ (le_refl _)
  rw [List.getElem?_drop]
  have harith : j % WORKERS + j / WORKERS * WORKERS = j := by
    rw [Nat.mul_comm]
    exact Nat.mod_add_div j WORKERS
  rw [harith, List.getElem?_eq_getElem hj, hjeq]

theorem schunk_subset (urls : List Str) (w : Nat) (x : Str)
    (hx : x ∈ chunkOf (roundRobinChunks urls) w) : x ∈ urls := by
  by_cases hw : w < WORKERS
  · rw [schunkOf_roundRobin urls w hw] at hx
    exact List.drop_subset _ _ (sstrided_subset _ _ x hx)
  · push_neg at hw
    rw [chunkOf, List.getD_eq_default _ _ (by rw [sroundRobin_length]; exact hw)] at hx
    exact absurd hx (List.not_mem_nil x)

theorem shead_all_eq {l : List Str} {u : Str} (hne : l ≠ []) (hall : ∀ x ∈ l, x = u) :
    l.head? = some u := by
  match l with
  | [] => exact absurd rfl hne
  | y :: ys =>
    rw [List.head?]
    rw [hall y (List.mem_cons_self _ _)]

theorem sfilterMap_result (s : WStatus) (x : Str) :
    (match s with
     | WStatus.done (some r) => some r
     | _ => none) = some x ↔ s = .done (some x) := by
  cases s with
  | ready k => simp
  | inFlight k => simp
  | done r => cases r <;> simp

theorem sfound_of_allDone (urls : List Str) (live : Str → Bool) (u : Str)
    (hu : live u = true) (hmem : u ∈ urls)
    (huniq : ∀ x ∈ urls, live x = true → x = u)
    (st : SState) (hInv : SearchInv (roundRobinChunks urls) live st)
    (hdone : allDone st = true) : searchResult st = some u := by
  obtain ⟨hlen, hwi, hev⟩ := hInv
  have hdone' : ∀ w, w < st.workers.length → ∃ r, statusOf st w = .done r := by
    intro w hwlt
    have hmem2 : statusOf st w ∈ st.workers := by
      rw [statusOf, List.getD_eq_getElem _ _ hwlt]
      exact List.getElem_mem hwlt
    have hall := List.all_eq_true.1 hdone _ hmem2
    cases hst : statusOf st w with
    | ready k => rw [hst] at hall; simp [isDoneStatus] at hall
    | inFlight k => rw [hst] at hall; simp [isDoneStatus] at hall
    | done r => exact ⟨r, rfl⟩
  have hof : ∀ w r, statusOf st w = .done (some r) → r = u := by
    intro w r hr
    have h2 := hwi w
    rw [hr] at h2
    obtain ⟨hlive, hmem3⟩ := h2
    exact huniq r (schunk_subset urls w r hmem3) hlive
  by_cases hex : ∃ w r, statusOf st w = .done (some r)
  · obtain ⟨w0, r0, h0⟩ := hex
    have hw0lt : w0 < st.workers.length := by
      by_contra hge
      push_neg at hge
      rw [statusOf, List.getD_eq_default _ _ hge] at h0
      cases h0
    apply shead_all_eq
    · intro habs
      have hmem4 : r0 ∈ st.workers.filterMap fun s =>
          match s with
          | WStatus.done (some r) => some r
          | _ => none := by
        rw [List.mem_filterMap]
        refine ⟨statusOf st w0, ?_, ?_⟩
        · rw [statusOf, List.getD_eq_getElem _ _ hw0lt]
          exact List.getElem_mem hw0lt
        · rw [(sfilterMap_result _ r0).2 h0]
      rw [habs] at hmem4
      exact absurd hmem4 (List.not_mem_nil r0)
    · intro x hx
      rw [List.mem_filterMap] at hx
      obtain ⟨s, hs, hfs⟩ := hx
      rw [sfilterMap_result] at hfs
      obtain ⟨i, hi, hieq⟩ := List.mem_iff_getElem.1 hs
      have hstat : statusOf st i = .done (some x) := by
        rw [statusOf, List.getD_eq_getElem _ _ hi, hieq, hfs]
      exact hof i x hstat
  · exfalso
    have hevF : st.ev = false := by
      cases hevb : st.ev with
      | false => rfl
      | true => exact absurd (hev hevb) hex
    obtain ⟨w0, hw0W, hw0⟩ := scoverage urls u hmem
    have hw0lt : w0 < st.workers.length := by
      rw [hlen, sroundRobin_length]
      exact hw0W
    obtain ⟨r, hr⟩ := hdone' w0 hw0lt
    cases r with
    | some r' => exact hex ⟨w0, r', hr⟩
    | none =>
      have h2 := hwi w0
      rw [hr] at h2
      rcases h2 with h2 | h2
      · rw [hevF] at h2; cases h2
      · rw [h2 u hw0] at hu; cases hu

theorem sstep_ready_ev_done (chunks : List (List Str)) (live : Str → Bool) (st : SState)
    (w k : Nat) (hev : st.ev = true) (hst : statusOf st w = .ready k) :
    statusOf (searchStep chunks live st w) w = .done none := by
  have hwlt : w < st.workers.length := sactive_lt st w (by rw [hst]; rfl)
  rw [statusOf] at hst
  simp only [searchStep, hst]
  by_cases hex : (chunkOf chunks w).length ≤ k * BATCH_SIZE
  · rw [if_pos hex]
    show (st.workers.set w _).getD w (.done none) = _
    rw [sgetD_set_self _ _ _ _ hwlt]
  · rw [if_neg hex, if_pos hev]
    show (st.workers.set w _).getD w (.done none) = _
    rw [sgetD_set_self _ _ _ _ hwlt]

theorem sstop_ready (chunks : List (List Str)) (live : Str → Bool) :
    ∀ (tr : List Nat) (st : SState) (w k : Nat), st.ev = true →
    statusOf st w = .ready k → 1 ≤ tr.count w →
    isDoneStatus (statusOf (searchRun chunks live st tr) w) = true := by
  intro tr
  induction tr with
  | nil => intro st w k _ _ hc; simp at hc
  | cons w' tr ih =>
    intro st w k hev hst hc
    rw [searchRun]
    by_cases hww : w' = w
    · subst hww
      rw [sstatus_run_done chunks live tr _ w' none
        (sstep_ready_ev_done chunks live st w' k hev hst)]
      rfl
    · have hev' := sev_step chunks live st w' hev
      have hst' : statusOf (searchStep chunks live st w') w = .ready k := by
        rw [sstatus_step_ne chunks live st w w' hww]
        exact hst
      refine ih _ w k hev' hst' ?_
      have hb : (w' == w) = false := by simp [hww]
      rw [List.count_cons, hb] at hc
      simpa using hc

theorem sstop_two (chunks : List (List Str)) (live : Str → Bool) :
    ∀ (tr : List Nat) (st : SState) (w : Nat), st.ev = true → 2 ≤ tr.count w →
    isDoneStatus (statusOf (searchRun chunks live st tr) w) = true := by
  intro tr
  induction tr with
  | nil => intro st w _ hc; simp at hc
  | cons w' tr ih =>
    intro st w hev hc
    rw [searchRun]
    by_cases hww : w' = w
    · subst hww
      rcases hst : statusOf st w' with k | k | r
      · rw [sstatus_run_done chunks live tr _ w' none
          (sstep_ready_ev_done chunks live st w' k hev hst)]
        rfl
      · have hwlt : w' < st.workers.length := sactive_lt st w' (by rw [hst]; rfl)
        have hc1 : 1 ≤ tr.count w' := by
          rw [List.count_cons, beq_self_eq_true, if_pos rfl] at hc
          omega
        rw [statusOf] at hst
        simp only [searchStep, hst]
        cases hfind : (batchOf chunks w' k).find? live with
        | some u =>
          rw [sstatus_run_done chunks live tr _ w' (some u) ?_]
          · rfl
          · show (st.workers.set w' _).getD w' (.done none) = _
            rw [sgetD_set_self _ _ _ _ hwlt]
        | none =>
          refine sstop_ready chunks live tr _ w' (k + 1) hev ?_ hc1
          show (st.workers.set w' _).getD w' (.done none) = _
          rw [sgetD_set_self _ _ _ _ hwlt]
      · rw [sstatus_run_done chunks live tr _ w' r
          (sstatus_step_done chunks live st w' w' r hst)]
        rfl
    · have hev' := sev_step chunks live st w' hev
      refine ih _ w hev' ?_
      have hb : (w' == w) = false := by simp [hww]
      rw [List.count_cons, hb] at hc
      simpa using hc

theorem srun_append (chunks : List (List Str)) (live : Str → Bool) :
    ∀ (t1 t2 : List Nat) (st : SState),
    searchRun chunks live st (t1 ++ t2) =
      searchRun chunks live (searchRun chunks live st t1) t2 := by
  intro t1
  induction t1 with
  | nil => intro t2 st; rfl
  | cons w t1 ih => intro t2 st; rw [List.cons_append, searchRun, searchRun, ih]

theorem sstep_ready_exhaust (chunks : List (List Str)) (live : Str → Bool) (st : SState)
    (w k : Nat) (hst : statusOf st w = .ready k)
    (hex : (chunkOf chunks w).length ≤ k * BATCH_SIZE) :
    statusOf (searchStep chunks live st w) w = .done none := by
  have hwlt : w < st.workers.length := sactive_lt st w (by rw [hst]; rfl)
  rw [statusOf] at hst
  simp only [searchStep, hst]
  rw [if_pos hex]
  show (st.workers.set w _).getD w (.done none) = _
  rw [sgetD_set_self _ _ _ _ hwlt]

theorem sterm_ready (chunks : List (List Str)) (live : Str → Bool) :
    ∀ (m : Nat) (st : SState) (w k : Nat), statusOf st w = .ready k →
    (chunkOf chunks w).length ≤ k * BATCH_SIZE + m * BATCH_SIZE →
    ∃ n, isDoneStatus
      (statusOf (searchRun chunks live st (List.replicate n w)) w) = true := by
  intro m
  induction m with
  | zero =>
    intro st w k hst hlen
    refine ⟨1, ?_⟩
    show isDoneStatus (statusOf (searchStep chunks live st w) w) = true
    rw [sstep_ready_exhaust chunks live st w k hst (by omega)]
    rfl
  | succ m ih =>
    intro st w k hst hlen
    have hwlt : w < st.workers.length := sactive_lt st w (by rw [hst]; rfl)
    by_cases hex : (chunkOf chunks w).length ≤ k * BATCH_SIZE
    · refine ⟨1, ?_⟩
      show isDoneStatus (statusOf (searchStep chunks live st w) w) = true
      rw [sstep_ready_exhaust chunks live st w k hst hex]
      rfl
    · by_cases hevb : st.ev = true
      · refine ⟨1, ?_⟩
        show isDoneStatus (statusOf (searchStep chunks live st w) w) = true
        rw [sstep_ready_ev_done chunks live st w k hevb hst]
        rfl
      · have hst1 : statusOf (searchStep chunks live st w) w = .inFlight k := by
          rw [statusOf] at hst
          simp only [searchStep, hst]
          rw [if_neg hex, if_neg hevb]
          show (st.workers.set w _).getD w (.done none) = _
          rw [sgetD_set_self _ _ _ _ hwlt]
        set st1 := searchStep chunks live st w with hst1def
        have hwlt1 : w < st1.workers.length := by
          rw [hst1def, sstep_workers_length]
          exact hwlt
        cases hfind : (batchOf chunks w k).find? live with
        | some u =>
          refine ⟨2, ?_⟩
          show isDoneStatus (statusOf (searchStep chunks live st1 w) w) = true
          rw [statusOf] at hst1
          simp only [searchStep, hst1, hfind]
          have : ((st1.workers.set w (.done (some u))).getD w (.done none)) =
              WStatus.done (some u) := sgetD_set_self _ _ _ _ hwlt1
          rw [show statusOf ⟨st1.workers.set w (.done (some u)), true⟩ w =
            (st1.workers.set w (.done (some u))).getD w (.done none) from rfl, this]
          rfl
        | none =>
          have hst2 : statusOf (searchStep chunks live st1 w) w = .ready (k + 1) := by
            rw [statusOf] at hst1
            simp only [searchStep, hst1, hfind]
            show (st1.workers.set w _).getD w (.done none) = _
            rw [sgetD_set_self _ _ _ _ hwlt1]
          obtain ⟨n, hn⟩ := ih (searchStep chunks live st1 w) w (k + 1) hst2
            (by simp only [BATCH_SIZE] at hlen ⊢; omega)
          refine ⟨2 + n, ?_⟩
          rw [List.replicate_add, srun_append]
          exact hn

theorem sterm_worker (chunks : List (List Str)) (live : Str → Bool) (st : SState) (w : Nat) :
    ∃ n, isDoneStatus
      (statusOf (searchRun chunks live st (List.replicate n w)) w) = true := by
  rcases hst : statusOf st w with k | k | r
  · refine sterm_ready chunks live (chunkOf chunks w).length st w k hst ?_
    simp only [BATCH_SIZE]
    omega
  · have hwlt : w < st.workers.length := sactive_lt st w (by rw [hst]; rfl)
    cases hfind : (batchOf chunks w k).find? live with
    | some u =>
      refine ⟨1, ?_⟩
      show isDoneStatus (statusOf (searchStep chunks live st w) w) = true
      rw [statusOf] at hst
      simp only [searchStep, hst, hfind]
      rw [show statusOf ⟨st.workers.set w (.done (some u)), true⟩ w =
        (st.workers.set w (.done (some u))).getD w (.done none) from rfl,
        sgetD_set_self _ _ _ _ hwlt]
      rfl
    | none =>
      have hst2 : statusOf (searchStep chunks live st w) w = .ready (k + 1) := by
        rw [statusOf] at hst
        simp only [searchStep, hst, hfind]
        show (st.workers.set w _).getD w (.done none) = _
        rw [sgetD_set_self _ _ _ _ hwlt]
      obtain ⟨n, hn⟩ := sterm_ready chunks live (chunkOf chunks w).length
        (searchStep chunks live st w) w (k + 1) hst2
        (by simp only [BATCH_SIZE]; omega)
      refine ⟨1 + n, ?_⟩
      rw [List.replicate_add, srun_append]
      exact hn
  · refine ⟨0, ?_⟩
    show isDoneStatus (statusOf st w) = true
    rw [hst]
    rfl

theorem sterm_all (chunks : List (List Str)) (live : Str → Bool) :
    ∀ (ws : List Nat) (st : SState), ∃ tr, ∀ w ∈ ws,
    isDoneStatus (statusOf (searchRun chunks live st tr) w) = true := by
  intro ws
  induction ws with
  | nil => intro st; exact ⟨[], by simp⟩
  | cons w ws ih =>
    intro st
    obtain ⟨n, hn⟩ := sterm_worker chunks live st w
    obtain ⟨tr, htr⟩ := ih (searchRun chunks live st (List.replicate n w))
    refine ⟨List.replicate n w ++ tr, ?_⟩
    intro w' hw'
    rcases List.mem_cons.1 hw' with rfl | hmem
    · rw [srun_append]
      obtain ⟨r, hr⟩ : ∃ r,
          statusOf (searchRun chunks live st (List.replicate n w')) w' = .done r := by
        cases hst : statusOf (searchRun chunks live st (List.replicate n w')) w' with
        | ready k => rw [hst] at hn; simp [isDoneStatus] at hn
        | inFlight k => rw [hst] at hn; simp [isDoneStatus] at hn
        | done r => exact ⟨r, rfl⟩
      rw [sstatus_run_done chunks live tr _ w' r hr]
      rfl
    · rw [srun_append]
      exact htr w' hmem

theorem sexists_allDone (chunks : List (List Str)) (live : Str → Bool) :
    ∃ tr, allDone (searchRun chunks live (searchInit chunks) tr) = true := by
  obtain ⟨tr, htr⟩ := sterm_all chunks live (List.range chunks.length) (searchInit chunks)
  refine ⟨tr, ?_⟩
  rw [allDone, List.all_eq_true]
  intro s hs
  have hlen : (searchRun chunks live (searchInit chunks) tr).workers.length =
      chunks.length := by
    rw [srun_workers_length]
    simp [searchInit]
  obtain ⟨i, hi, hieq⟩ := List.mem_iff_getElem.1 hs
  have hstat : statusOf (searchRun chunks live (searchInit chunks) tr) i = s := by
    rw [statusOf, List.getD_eq_getElem _ _ hi, hieq]
  rw [← hstat]
  exact htr i (List.mem_range.2 (by omega))

/-- C4: with exactly one Live URL `u` in the candidate list, (i) every run of
the worker pool under any schedule that drives all workers to termination
returns `u`, regardless of `u`'s position; (ii) such a completed schedule
exists; (iii) once the cancellation event is set, no worker fans out any
further batch of probes; (iv) after the event is set, a worker terminates
within two of its own scheduler slices (finishing its in-flight batch and then
observing the event), so it stops within at most one further batch.  The
result is only read in states where every worker has terminated, matching the
coordinator's join-before-return. -/
theorem claim_C4_search (urls : List Str) (live : Str → Bool) (u : Str)
    (hu : live u = true) (hmem : u ∈ urls)
    (huniq : ∀ x ∈ urls, live x = true → x = u) :
    (∀ tr, allDone (searchRun (roundRobinChunks urls) live
        (searchInit (roundRobinChunks urls)) tr) = true →
      searchResult (searchRun (roundRobinChunks urls) live
        (searchInit (roundRobinChunks urls)) tr) = some u) ∧
    (∃ tr, allDone (searchRun (roundRobinChunks urls) live
        (searchInit (roundRobinChunks urls)) tr) = true) ∧
    (∀ tr w, (searchRun (roundRobinChunks urls) live
        (searchInit (roundRobinChunks urls)) tr).ev = true →
      launchProbes (roundRobinChunks urls) (searchRun (roundRobinChunks urls) live
        (searchInit (roundRobinChunks urls)) tr) w = []) ∧
    (∀ tr tr2 w, (searchRun (roundRobinChunks urls) live
        (searchInit (roundRobinChunks urls)) tr).ev = true →
      2 ≤ tr2.count w →
      isDoneStatus (statusOf (searchRun (roundRobinChunks urls) live
        (searchRun (roundRobinChunks urls) live
          (searchInit (roundRobinChunks urls)) tr) tr2) w) = true) := by
  refine ⟨?_, sexists_allDone _ live, ?_, ?_⟩
  · intro tr hdone
    exact sfound_of_allDone urls live u hu hmem huniq _
      (sInv_run _ live tr _ (sInv_init _ live)) hdone
  · intro tr w hev
    exact slaunch_ev _ _ w hev
  · intro tr tr2 w hev hc
    exact sstop_two _ live tr2 _ w hev hc

set_option maxRecDepth 40000 in
/-- C4 (witness): a six-candidate list whose only Live URL is "u4", driven to
completion by a concrete round-robin schedule, returns "u4". -/
theorem claim_C4_witness :
    searchResult (searchRun
      (roundRobinChunks ["u0".data, "u1".data, "u2".data, "u3".data, "u4".data, "u5".data])
      (fun s => s == "u4".data)
      (searchInit (roundRobinChunks
        ["u0".data, "u1".data, "u2".data, "u3".data, "u4".data, "u5".data]))
      [0, 0, 1, 1, 2, 2, 3, 3, 0, 1, 2, 3]) = some "u4".data :=
  (claim_C4_search _ _ "u4".data (by decide) (by decide) (by decide)).1 _ (by decide)

/-- C1 (counterexample): with 20001 values for tag `A` and 2 for tag `B` the
full product n₁·n₂ is 40002, but the code raises the overflow error carrying
20001 — the first running product beyond 20000 — not the full product the
claim states. -/
theorem claim_C1_counterexample :
    buildLists tvC1 (extract_tags "x[A][B]".data) = some [bigVals, [['b'], ['c']]] ∧
    prodLens [bigVals, [['b'], ['c']]] = 40002 ∧
    generate_urls_from_template_impl "x[A][B]".data tvC1 = .error 20001 ∧
    (20001 : Nat) ≠ 40002 := by
  have htags : extract_tags "x[A][B]".data = [['A'], ['B']] := by decide
  have hA : tvC1 ['A'] = bigVals := by simp [tvC1]
  have hB : tvC1 ['B'] = [['b'], ['c']] := by simp [tvC1]
  have hupA : pyUpper ['A'] = ['A'] := by decide
  have hupB : pyUpper ['B'] = ['B'] := by decide
  have hbuild : buildLists tvC1 [['A'], ['B']] = some [bigVals, [['b'], ['c']]] := by
    simp only [buildLists, hA, hB, hupA, hupB, bigVals_isEmpty]
    simp
  have hcheck : checkCombos 1 [bigVals, [['b'], ['c']]] = some 20001 := by
    simp only [checkCombos, bigVals_length]
    norm_num [MAX_COMBINATIONS]
  refine ⟨by rw [htags]; exact hbuild, ?_, ?_, by decide⟩
  · simp [prodLens, bigVals_length]
  · simp only [generate_urls_from_template_impl, htags, hbuild, hcheck]
    rfl

/-- C1 (witness): two markers with 2 and 1 values produce exactly 2 URLs. -/
theorem claim_C1_witness :
    ∃ urls, generate_urls_from_template_impl "x[A]y[B]".data
      (fun t => if t = ['A'] then [['1'], ['2']] else if t = ['B'] then [['3']] else []) =
      .ok urls ∧ urls.length = prodLens [[['1'], ['2']], [['3']]] :=
  (claim_C1_amended "x[A]y[B]".data _ [[['1'], ['2']], [['3']]]
    (by decide) (by decide) (by decide)).1 (by decide)

/-- C2 (counterexample): "Skull" is in the claim's scope (its lowercase text
lacks the special substrings) yet its expansion has 12 candidates, not the
claimed 18, because the title-case variant coincides with the original and is
de-duplicated. -/
theorem claim_C2_counterexample :
    (hasSubstr "token".data (pyLower "Skull".data) &&
      hasSubstr "wheel".data (pyLower "Skull".data)) = false ∧
    (expand_gacha_values ["Skull".data]).length = 12 ∧
    ¬(expand_gacha_values ["Skull".data]).length = 18 := by
  decide

/-- C2 (witness): the amended count theorem applied at "Skull". -/
theorem claim_C2_witness :
    (expand_gacha_values ["Skull".data]).length =
      6 * (expand_gacha_name_base "Skull".data).length :=
  (claim_C2_amended.1 "Skull".data (by decide)).1

/-- C6 (witness): the value "a/b" is encoded with no literal slash and with
"%2F" as an infix. -/
theorem claim_C6_witness :
    '/' ∉ pyQuote "a/b".data ∧ "%2F".data <:+: pyQuote "a/b".data :=
  ⟨(claim_C6_percent_encode_slash "a/b".data).1,
   (claim_C6_percent_encode_slash "a/b".data).2 (by decide)⟩

/-- C7 (counterexample): when the `T` tag value is "overview.jpg", the base
overview URL contains "/overview.jpg" twice, `str.replace` substitutes both
occurrences, and the banner candidate set differs from the trailing-segment
substitution the claim describes. -/
theorem claim_C7_counterexample :
    bannerCandidates (fun t =>
      if t = ['V'] then ["1".data]
      else if t = ['T'] then ["overview.jpg".data]
      else if t = ['E'] then ["x".data] else []) ≠
    claimBannerCandidates (fun t =>
      if t = ['V'] then ["1".data]
      else if t = ['T'] then ["overview.jpg".data]
      else if t = ['E'] then ["x".data] else []) := by
  decide

set_option maxRecDepth 40000 in
/-- C7 (witness): a banner request with one value per tag produces the splash
URL followed by the five overview spelling variants. -/
theorem claim_C7_witness :
    bannerCandidates (fun t =>
      if t = ['V'] then ["1".data]
      else if t = ['T'] then ["2".data]
      else if t = ['E'] then ["x".data] else []) =
      .ok (["https://dl.dir.freefiremobile.com/common/OB1/ID/2_x/splash.jpg".data] ++
        ["https://dl.dir.freefiremobile.com/common/OB1/ID/2_x/overview.jpg".data].flatMap
          overviewVariantUrls) :=
  (claim_C7_amended.1 _ _ _ (by decide) (by decide)).1

/-- C8 (witness): a template whose only marker has no supplied values yields
the empty candidate set. -/
theorem claim_C8_witness :
    generate_urls_from_template_impl "a[B]c".data (fun _ => []) = .ok [] :=
  claim_C8_empty_result "a[B]c".data (fun _ => []) (Or.inr ⟨['B'], by decide, rfl⟩)
